import Mathlib

/-!
Verification of the genetic-value core of tstrait (phenotype.py).

The embedding models the tree-traversal and allele-resolution functions of
the source file:

* `obtain_sample_nodes` — the explicit-stack subtree traversal
  (`stack = [root]; while stack: parent = stack.pop(); ...`).  The Python
  `while` loops are modelled with an explicit fuel argument: `pushSibs`
  walks the sibling chain of one node, `obtainGo` runs the outer loop.
  Note that the source appends the loop variable `child` (which equals the
  NONE sentinel `-1` whenever the branch is taken), exactly as written at
  phenotype.py line 144; the embedding reproduces this faithfully.
* `remove_list`, `causal_mutation_sample_nodes` — the mutation/allele
  resolver, with Python exceptions modelled by `Except PyErr`.
* `node_genetic_value` — the per-site accumulation loop; the source calls
  the undefined name `sim_beta`, modelled as the error `nameErrSimBeta`.
* `individual_genetic` — the node-to-individual reduction
  (`G = G[ts.samples()]; G = G[::2] + G[1::2]`).  The elementwise `+` of
  the two strided slices follows NumPy broadcasting (`npBroadcastAdd`):
  equal lengths add pointwise, a length-1 operand is broadcast against
  the other, and any other length mismatch raises the broadcast
  `ValueError`, modelled as `none`.
* `fancyAddScalar` — NumPy semantics of `G[idx] += beta` for a scalar
  `beta`: negative indices wrap once, duplicate indices receive the
  increment only once (gather/modify/scatter buffering).

Finite trees presented through the `left_child`/`right_sib` arrays are
certified by `BT`, a binary first-child/next-sibling tree whose
consistency with the two arrays is checked by the executable `BT.EncB`.
-/

set_option maxRecDepth 4000

/-- The tskit NULL marker, `-1`, used in the child and sibling arrays. -/
def NONE : Int := -1

/-- The inner `while child != -1` loop of `obtain_sample_nodes`
(phenotype.py lines 140-142): pushes the sibling chain starting at `c`
onto the stack, walking `right_sib`.  `fuel` bounds the number of
iterations; `none` means the bound was exhausted. -/
def pushSibs (rs : Int → Int) : Nat → Int → List Int → Option (List Int)
  | 0, c, stack => if c = NONE then some stack else none
  | fuel + 1, c, stack =>
      if c = NONE then some stack else pushSibs rs fuel (rs c) (c :: stack)

/-- The outer `while stack` loop of `obtain_sample_nodes`
(phenotype.py lines 136-144).  The Python list used as a stack is
modelled with the top at the head.  In the leaf branch the source appends
the loop variable `child` (which is `-1` there), so the accumulator
receives `lc parent`, not `parent`. -/
def obtainGo (lc rs : Int → Int) (F : Nat) : Nat → List Int → List Int → Option (List Int)
  | 0, stack, acc => match stack with | [] => some acc | _ :: _ => none
  | fuel + 1, stack, acc =>
      match stack with
      | [] => some acc
      | parent :: rest =>
          if lc parent = NONE then
            obtainGo lc rs F fuel rest (acc ++ [lc parent])
          else
            match pushSibs rs F (lc parent) rest with
            | none => none
            | some stack2 => obtainGo lc rs F fuel stack2 acc

/-- `obtain_sample_nodes(root, left_child_array, right_sib_array)`
(phenotype.py lines 130-145), with `fuel` bounding both loops. -/
def obtain_sample_nodes (lc rs : Int → Int) (fuel : Nat) (root : Int) : Option (List Int) :=
  obtainGo lc rs fuel fuel [root] []

/-- Instrumented variant of `obtainGo` recording every node popped from
the stack, used to state that the traversal visits no node twice. -/
def visitedGo (lc rs : Int → Int) (F : Nat) : Nat → List Int → List Int → Option (List Int)
  | 0, stack, acc => match stack with | [] => some acc | _ :: _ => none
  | fuel + 1, stack, acc =>
      match stack with
      | [] => some acc
      | parent :: rest =>
          if lc parent = NONE then
            visitedGo lc rs F fuel rest (acc ++ [parent])
          else
            match pushSibs rs F (lc parent) rest with
            | none => none
            | some stack2 => visitedGo lc rs F fuel stack2 (acc ++ [parent])

/-- The sequence of nodes popped by `obtain_sample_nodes`. -/
def visited_nodes (lc rs : Int → Int) (fuel : Nat) (root : Int) : Option (List Int) :=
  visitedGo lc rs fuel fuel [root] []

/-- Binary first-child/next-sibling tree: `node v c s` is a node labelled
`v` whose first child starts the forest `c` and whose next sibling starts
the forest `s`; `leaf` is the empty forest (the NONE link). -/
inductive BT : Type where
  | leaf : BT
  | node : Int → BT → BT → BT

/-- Label of the first node of a forest, `-1` for the empty forest:
exactly the value stored in the corresponding array entry. -/
def BT.rootLabel : BT → Int
  | .leaf => NONE
  | .node v _ _ => v

/-- Number of nodes in the forest. -/
def BT.size : BT → Nat
  | .leaf => 0
  | .node _ c s => 1 + BT.size c + BT.size s

/-- Length of the top-level sibling chain of the forest. -/
def BT.spineLen : BT → Nat
  | .leaf => 0
  | .node _ _ s => 1 + BT.spineLen s

/-- Effect of pushing the top-level sibling chain onto a stack, first
sibling pushed first (so the last sibling ends up on top). -/
def BT.labelStack : BT → List Int → List Int
  | .leaf, st => st
  | .node v _ s, st => BT.labelStack s (v :: st)

/-- Order in which the stack traversal pops the nodes of the forest:
later siblings (pushed last) are processed first, each node before its
child forest. -/
def BT.visitOrder : BT → List Int
  | .leaf => []
  | .node v c s => BT.visitOrder s ++ v :: BT.visitOrder c

/-- Number of leaves (childless nodes) of the forest, in traversal
order components: siblings processed first. -/
def BT.leafCount : BT → Nat
  | .leaf => 0
  | .node _ c s =>
      BT.leafCount s + (match c with | .leaf => 1 | .node _ _ _ => BT.leafCount c)

/-- Number of leaves of the tree rooted at a node whose child forest is
`f` (a childless root is itself the unique leaf). -/
def BT.treeLeafCount : BT → Nat
  | .leaf => 1
  | .node v c s => BT.leafCount (BT.node v c s)

/-- Executable check that the forest `f` is exactly what the
`left_child`/`right_sib` arrays encode: every node has a valid (non-NULL)
id, its `left_child` entry is the first node of its child forest and its
`right_sib` entry the first node of its sibling forest. -/
def BT.EncB (lc rs : Int → Int) : BT → Bool
  | .leaf => true
  | .node v c s =>
      (v != NONE) && (lc v == BT.rootLabel c) && (rs v == BT.rootLabel s)
        && BT.EncB lc rs c && BT.EncB lc rs s

theorem BT.encB_node (lc rs : Int → Int) (v : Int) (c s : BT)
    (h : BT.EncB lc rs (BT.node v c s) = true) :
    v ≠ NONE ∧ lc v = BT.rootLabel c ∧ rs v = BT.rootLabel s
      ∧ BT.EncB lc rs c = true ∧ BT.EncB lc rs s = true := by
  simp only [BT.EncB, Bool.and_eq_true, bne_iff_ne, ne_eq, beq_iff_eq] at h
  exact ⟨h.1.1.1.1, h.1.1.1.2, h.1.1.2, h.1.2, h.2⟩

theorem BT.spineLen_le_size : ∀ f : BT, BT.spineLen f ≤ BT.size f
  | .leaf => Nat.le_refl 0
  | .node _ c s => by
      have hs := BT.spineLen_le_size s
      simp only [BT.spineLen, BT.size]
      omega

/-- `pushSibs` pushes exactly the labels of the top-level sibling chain
when the forest is array-consistent and fuel covers the chain length. -/
theorem pushSibs_spec (lc rs : Int → Int) :
    ∀ f : BT, BT.EncB lc rs f = true → ∀ fuel : Nat, BT.spineLen f ≤ fuel →
    ∀ stack : List Int, pushSibs rs fuel (BT.rootLabel f) stack = some (BT.labelStack f stack) := by
  intro f
  induction f with
  | leaf =>
      intro _ fuel _ stack
      cases fuel <;> simp [pushSibs, BT.rootLabel, BT.labelStack]
  | node v c s ihc ihs =>
      intro henc fuel hfu stack
      obtain ⟨hv, hlcv, hrsv, hc, hs⟩ := BT.encB_node lc rs v c s henc
      have h1 : 1 + BT.spineLen s ≤ fuel := by simpa [BT.spineLen] using hfu
      obtain ⟨fu, rfl⟩ : ∃ fu, fuel = fu + 1 := ⟨fuel - 1, by omega⟩
      simp only [BT.rootLabel, pushSibs, if_neg hv, hrsv]
      exact ihs hs fu (by omega) (v :: stack)

/-- Running the outer loop with an array-consistent forest's sibling
chain on top of the stack processes the whole forest: its nodes are
popped, and one NONE sentinel is appended to the accumulator per leaf
(the source appends `child`, not `parent`). -/
theorem obtainGo_forest (lc rs : Int → Int) (F : Nat) :
    ∀ f : BT, BT.EncB lc rs f = true → BT.size f ≤ F →
    ∀ (fuel : Nat) (stack acc : List Int),
      obtainGo lc rs F (BT.size f + fuel) (BT.labelStack f stack) acc
        = obtainGo lc rs F fuel stack (acc ++ List.replicate (BT.leafCount f) NONE) := by
  intro f
  induction f with
  | leaf =>
      intro _ _ fuel stack acc
      simp [BT.size, BT.labelStack, BT.leafCount]
  | node v c s ihc ihs =>
      intro henc hsz fuel stack acc
      obtain ⟨hv, hlcv, hrsv, hc, hs⟩ := BT.encB_node lc rs v c s henc
      have hszs : BT.size s ≤ F := by simp only [BT.size] at hsz; omega
      have hszc : BT.size c ≤ F := by simp only [BT.size] at hsz; omega
      have e1 : BT.size (BT.node v c s) + fuel = BT.size s + (BT.size c + fuel + 1) := by
        simp only [BT.size]; omega
      rw [show BT.labelStack (BT.node v c s) stack = BT.labelStack s (v :: stack) from rfl,
        e1, ihs hs hszs (BT.size c + fuel + 1) (v :: stack) acc]
      cases c with
      | leaf =>
          simp only [BT.rootLabel] at hlcv
          simp only [BT.size, Nat.zero_add, obtainGo, if_pos hlcv]
          rw [hlcv]
          rw [show BT.leafCount (BT.node v BT.leaf s) = BT.leafCount s + 1 from rfl]
          rw [List.replicate_add, List.replicate_one, List.append_assoc]
      | node v2 c2 s2 =>
          have hv2 : BT.rootLabel (BT.node v2 c2 s2) ≠ NONE := by
            obtain ⟨hv2, _, _, _, _⟩ := BT.encB_node lc rs v2 c2 s2 hc
            simpa [BT.rootLabel] using hv2
          have hpush := pushSibs_spec lc rs (BT.node v2 c2 s2) hc F
            (Nat.le_trans (BT.spineLen_le_size _) hszc) stack
          simp only [obtainGo, hlcv, if_neg hv2, hpush]
          rw [ihc hc hszc fuel stack (acc ++ List.replicate (BT.leafCount s) NONE)]
          rw [show BT.leafCount (BT.node v (BT.node v2 c2 s2) s)
              = BT.leafCount s + BT.leafCount (BT.node v2 c2 s2) from rfl]
          rw [List.replicate_add, List.append_assoc]

/-- `visitedGo` analogue of `obtainGo_forest`: the popped nodes are
exactly `BT.visitOrder`. -/
theorem visitedGo_forest (lc rs : Int → Int) (F : Nat) :
    ∀ f : BT, BT.EncB lc rs f = true → BT.size f ≤ F →
    ∀ (fuel : Nat) (stack acc : List Int),
      visitedGo lc rs F (BT.size f + fuel) (BT.labelStack f stack) acc
        = visitedGo lc rs F fuel stack (acc ++ BT.visitOrder f) := by
  intro f
  induction f with
  | leaf =>
      intro _ _ fuel stack acc
      simp [BT.size, BT.labelStack, BT.visitOrder]
  | node v c s ihc ihs =>
      intro henc hsz fuel stack acc
      obtain ⟨hv, hlcv, hrsv, hc, hs⟩ := BT.encB_node lc rs v c s henc
      have hszs : BT.size s ≤ F := by simp only [BT.size] at hsz; omega
      have hszc : BT.size c ≤ F := by simp only [BT.size] at hsz; omega
      have e1 : BT.size (BT.node v c s) + fuel = BT.size s + (BT.size c + fuel + 1) := by
        simp only [BT.size]; omega
      rw [show BT.labelStack (BT.node v c s) stack = BT.labelStack s (v :: stack) from rfl,
        e1, ihs hs hszs (BT.size c + fuel + 1) (v :: stack) acc]
      cases c with
      | leaf =>
          simp only [BT.rootLabel] at hlcv
          simp only [BT.size, Nat.zero_add, visitedGo, if_pos hlcv, BT.visitOrder]
          simp [List.append_assoc]
      | node v2 c2 s2 =>
          have hv2 : BT.rootLabel (BT.node v2 c2 s2) ≠ NONE := by
            obtain ⟨hv2, _, _, _, _⟩ := BT.encB_node lc rs v2 c2 s2 hc
            simpa [BT.rootLabel] using hv2
          have hpush := pushSibs_spec lc rs (BT.node v2 c2 s2) hc F
            (Nat.le_trans (BT.spineLen_le_size _) hszc) stack
          simp only [visitedGo, hlcv, if_neg hv2, hpush]
          rw [ihc hc hszc fuel stack (acc ++ BT.visitOrder s ++ [v])]
          simp [BT.visitOrder, List.append_assoc]

/-- With fuel one more than the number of descendant nodes,
`obtain_sample_nodes` from a root whose child forest is certified by `f`
terminates and returns one NONE sentinel per reachable leaf. -/
theorem obtain_sample_nodes_encoded (lc rs : Int → Int) (root : Int) (f : BT)
    (hroot : lc root = BT.rootLabel f) (henc : BT.EncB lc rs f = true) :
    obtain_sample_nodes lc rs (1 + BT.size f) root
      = some (List.replicate (BT.treeLeafCount f) NONE) := by
  rw [obtain_sample_nodes, show 1 + BT.size f = BT.size f + 1 from Nat.add_comm 1 _]
  cases f with
  | leaf =>
      simp only [BT.rootLabel] at hroot
      simp [obtainGo, hroot, BT.size, BT.treeLeafCount]
  | node v c s =>
      have hv : BT.rootLabel (BT.node v c s) ≠ NONE := by
        obtain ⟨hv, _, _, _, _⟩ := BT.encB_node lc rs v c s henc
        simpa [BT.rootLabel] using hv
      have hpush := pushSibs_spec lc rs (BT.node v c s) henc (BT.size (BT.node v c s) + 1)
        (Nat.le_trans (BT.spineLen_le_size _) (Nat.le_succ_of_le (Nat.le_refl _))) []
      simp only [obtainGo, hroot, if_neg hv, hpush]
      exact (obtainGo_forest lc rs (BT.size (BT.node v c s) + 1) (BT.node v c s) henc
        (Nat.le_succ_of_le (Nat.le_refl _)) 0 [] []).trans (by simp [obtainGo, BT.treeLeafCount])

/-- With the same fuel, the traversal pops the root followed by the
visit order of its child forest. -/
theorem visited_nodes_encoded (lc rs : Int → Int) (root : Int) (f : BT)
    (hroot : lc root = BT.rootLabel f) (henc : BT.EncB lc rs f = true) :
    visited_nodes lc rs (1 + BT.size f) root = some (root :: BT.visitOrder f) := by
  rw [visited_nodes, show 1 + BT.size f = BT.size f + 1 from Nat.add_comm 1 _]
  cases f with
  | leaf =>
      simp only [BT.rootLabel] at hroot
      simp [visitedGo, hroot, BT.size, BT.visitOrder]
  | node v c s =>
      have hv : BT.rootLabel (BT.node v c s) ≠ NONE := by
        obtain ⟨hv, _, _, _, _⟩ := BT.encB_node lc rs v c s henc
        simpa [BT.rootLabel] using hv
      have hpush := pushSibs_spec lc rs (BT.node v c s) henc (BT.size (BT.node v c s) + 1)
        (Nat.le_trans (BT.spineLen_le_size _) (Nat.le_succ_of_le (Nat.le_refl _))) []
      simp only [visitedGo, hroot, if_neg hv, hpush]
      exact (visitedGo_forest lc rs (BT.size (BT.node v c s) + 1) (BT.node v c s) henc
        (Nat.le_succ_of_le (Nat.le_refl _)) 0 [] ([] ++ [root])).trans (by simp [visitedGo])

/-- Every value the outer loop ever appends to the accumulator of
`obtainGo` (beyond what was already there) is the NONE sentinel. -/
theorem obtainGo_mem (lc rs : Int → Int) (F : Nat) :
    ∀ (fuel : Nat) (stack acc out : List Int), obtainGo lc rs F fuel stack acc = some out →
      ∀ x ∈ out, x ∈ acc ∨ x = NONE := by
  intro fuel
  induction fuel with
  | zero =>
      intro stack acc out h x hx
      cases stack with
      | nil => simp only [obtainGo, Option.some.injEq] at h; exact Or.inl (h ▸ hx)
      | cons a rest => simp [obtainGo] at h
  | succ fu ih =>
      intro stack acc out h x hx
      cases stack with
      | nil => simp only [obtainGo, Option.some.injEq] at h; exact Or.inl (h ▸ hx)
      | cons parent rest =>
          simp only [obtainGo] at h
          by_cases hc : lc parent = NONE
          · rw [if_pos hc] at h
            rcases ih rest (acc ++ [lc parent]) out h x hx with hmem | hnone
            · rcases List.mem_append.mp hmem with h1 | h1
              · exact Or.inl h1
              · right; rw [List.mem_singleton.mp h1, hc]
            · exact Or.inr hnone
          · rw [if_neg hc] at h
            cases hp : pushSibs rs F (lc parent) rest with
            | none => rw [hp] at h; simp at h
            | some stack2 =>
                rw [hp] at h
                exact ih stack2 acc out h x hx

/-- Every element of a successful `obtain_sample_nodes` result is the
NONE sentinel (the source appends `child`, which is `-1`, at each leaf). -/
theorem obtain_sample_nodes_all_none (lc rs : Int → Int) (fuel : Nat) (root : Int)
    (out : List Int) (h : obtain_sample_nodes lc rs fuel root = some out) :
    ∀ x ∈ out, x = NONE := by
  intro x hx
  rcases obtainGo_mem lc rs fuel fuel [root] [] out h x hx with hmem | hnone
  · simp at hmem
  · exact hnone

/-- One mutation record: node, derived allele state, time, and the
(possibly NULL = -1) index of the parent mutation. -/
structure Mutation where
  node : Int
  derived_state : String
  time : ℚ
  parent : Int
deriving DecidableEq

/-- One site: ancestral state and its list of mutations. -/
structure Site where
  ancestral_state : String
  mutations : List Mutation
deriving DecidableEq

/-- Python-level failures of the embedded functions.  `invalidAllele` and
`missingParent` name the spec's error taxonomy; the source never raises a
dedicated invalid-allele error.  `valueErr` is the `ValueError` raised by
`list.remove` on a missing element, `nameErrSimBeta` the `NameError`
raised because `sim_beta` is undefined, and `fuelOut` is the model
artifact for exhausted loop fuel. -/
inductive PyErr where
  | invalidAllele
  | missingParent
  | valueErr
  | nameErrSimBeta
  | fuelOut
deriving DecidableEq

instance instDecEqExceptPyErr (α : Type) [DecidableEq α] : DecidableEq (Except PyErr α) :=
  fun a b =>
    match a, b with
    | Except.ok x, Except.ok y =>
        if h : x = y then Decidable.isTrue (by rw [h]) else Decidable.isFalse (by simp [h])
    | Except.error e, Except.error e2 =>
        if h : e = e2 then Decidable.isTrue (by rw [h]) else Decidable.isFalse (by simp [h])
    | Except.ok _, Except.error _ => Decidable.isFalse (by simp)
    | Except.error _, Except.ok _ => Decidable.isFalse (by simp)

/-- `ts.mutation(p)`: look up a mutation row by index; out-of-range
indices (in particular the NULL parent `-1`) fail, modelling the dangling
parent lookup. -/
def tsMutation (muts : List Mutation) (p : Int) : Except PyErr Mutation :=
  if h : 0 ≤ p ∧ p.toNat < muts.length then Except.ok (muts.get ⟨p.toNat, h.2⟩)
  else Except.error PyErr.missingParent

/-- Stable insertion used to model Python
`sorted(site.mutations, key=lambda x: x.time, reverse=True)`. -/
def insertDescTime (m : Mutation) : List Mutation → List Mutation
  | [] => [m]
  | x :: xs => if x.time ≤ m.time then m :: x :: xs else x :: insertDescTime m xs

/-- Stable sort of the mutation list by descending time (phenotype.py
line 160). -/
def sortDescTime : List Mutation → List Mutation
  | [] => []
  | m :: ms => insertDescTime m (sortDescTime ms)

/-- `list.remove(a)`: removes the first occurrence of `a`, `none`
(Python `ValueError`) when `a` is absent. -/
def removeOne (a : Int) : List Int → Option (List Int)
  | [] => none
  | x :: xs => if x = a then some xs else Option.map (fun ys => x :: ys) (removeOne a xs)

/-- `remove_list(sample_nodes, remove_nodes)` (phenotype.py lines
147-153): removes each element of `remove_nodes` in turn. -/
def remove_list (sample_nodes remove_nodes : List Int) : Option (List Int) :=
  match remove_nodes with
  | [] => some sample_nodes
  | i :: rest =>
      match removeOne i sample_nodes with
      | none => none
      | some s2 => remove_list s2 rest

/-- The `for m in mutation_list` loop of `causal_mutation_sample_nodes`
(phenotype.py lines 162-168). -/
def cmsnLoop (muts : List Mutation) (lc rs : Int → Int) (fuel : Nat) (ca : String) :
    List Mutation → List Int → Except PyErr (List Int)
  | [], sample_nodes => Except.ok sample_nodes
  | m :: rest, sample_nodes =>
      if m.derived_state = ca then
        match obtain_sample_nodes lc rs fuel m.node with
        | none => Except.error PyErr.fuelOut
        | some keep => cmsnLoop muts lc rs fuel ca rest (sample_nodes ++ keep)
      else
        match tsMutation muts m.parent with
        | Except.error e => Except.error e
        | Except.ok pm =>
            if pm.derived_state = ca then
              match obtain_sample_nodes lc rs fuel m.node with
              | none => Except.error PyErr.fuelOut
              | some rem =>
                  match remove_list sample_nodes rem with
                  | none => Except.error PyErr.valueErr
                  | some s2 => cmsnLoop muts lc rs fuel ca rest s2
            else cmsnLoop muts lc rs fuel ca rest sample_nodes

/-- `causal_mutation_sample_nodes(ts, tree, site, causal_allele)`
(phenotype.py lines 155-170).  `muts` is the tree sequence's mutation
table (for `ts.mutation(m.parent)`), `lc`/`rs` the tree arrays. -/
def causal_mutation_sample_nodes (muts : List Mutation) (lc rs : Int → Int) (fuel : Nat)
    (site : Site) (ca : String) : Except PyErr (List Int) :=
  cmsnLoop muts lc rs fuel ca (sortDescTime site.mutations) []

/-- The per-site frequency computation of `node_genetic_value`
(phenotype.py lines 190-192): `len(causal_sample_nodes) / N`. -/
def site_frequency (muts : List Mutation) (lc rs : Int → Int) (fuel : Nat) (N : Nat)
    (site : Site) (ca : String) : Except PyErr ℚ :=
  Except.map (fun L : List Int => (L.length : ℚ) / (N : ℚ))
    (causal_mutation_sample_nodes muts lc rs fuel site ca)

/-- Recognizer for the spec's `InvalidAlleleError` outcome. -/
def isInvalidAlleleErr : Except PyErr (List Int) → Bool
  | Except.error PyErr.invalidAllele => true
  | _ => false

theorem removeOne_none_iff (a : Int) : ∀ s : List Int, removeOne a s = none ↔ a ∉ s
  | [] => by simp [removeOne]
  | x :: xs => by
      by_cases hx : x = a
      · subst hx; simp [removeOne]
      · simp only [removeOne, if_neg hx, Option.map_eq_none', removeOne_none_iff a xs,
          List.mem_cons, not_or]
        constructor
        · intro h; exact ⟨fun he => hx he.symm, h⟩
        · intro h; exact h.2

theorem removeOne_some_multiset (a : Int) :
    ∀ s out : List Int, removeOne a s = some out →
      a ∈ s ∧ (out : Multiset Int) = (s : Multiset Int).erase a
  | [], out, h => by simp [removeOne] at h
  | x :: xs, out, h => by
      by_cases hx : x = a
      · subst hx
        rw [removeOne, if_pos rfl, Option.some.injEq] at h
        subst h
        exact ⟨List.mem_cons_self x xs, by simp⟩
      · rw [removeOne, if_neg hx] at h
        rcases Option.map_eq_some'.mp h with ⟨ys, hys, rfl⟩
        obtain ⟨hmem, hm⟩ := removeOne_some_multiset a xs ys hys
        constructor
        · exact List.mem_cons_of_mem x hmem
        · rw [show ((x :: ys : List Int) : Multiset Int) = x ::ₘ (ys : Multiset Int) from rfl,
            show ((x :: xs : List Int) : Multiset Int) = x ::ₘ (xs : Multiset Int) from rfl,
            hm, Multiset.erase_cons_tail]
          simpa using hx

theorem remove_list_some_multiset :
    ∀ r s out : List Int, remove_list s r = some out →
      (out : Multiset Int) = (s : Multiset Int) - (r : Multiset Int)
  | [], s, out, h => by
      simp only [remove_list, Option.some.injEq] at h
      subst h; simp
  | a :: rest, s, out, h => by
      rw [remove_list] at h
      cases hrem : removeOne a s with
      | none => rw [hrem] at h; exact Option.noConfusion h
      | some s2 =>
          rw [hrem] at h
          obtain ⟨ha, hm⟩ := removeOne_some_multiset a s s2 hrem
          rw [remove_list_some_multiset rest s2 out h, hm,
            show ((a :: rest : List Int) : Multiset Int) = a ::ₘ (rest : Multiset Int) from rfl,
            Multiset.sub_cons]

theorem remove_list_none_iff :
    ∀ r s : List Int, remove_list s r = none ↔ ¬ ((r : Multiset Int) ≤ (s : Multiset Int))
  | [], s => by simp [remove_list]
  | a :: rest, s => by
      rw [remove_list]
      cases hrem : removeOne a s with
      | none =>
          have ha : a ∉ s := (removeOne_none_iff a s).mp hrem
          simp only [iff_true_intro rfl, true_iff]
          intro hle
          exact ha (Multiset.mem_coe.mp (Multiset.mem_of_le hle (by simp)))
      | some s2 =>
          obtain ⟨ha, hm⟩ := removeOne_some_multiset a s s2 hrem
          rw [remove_list_none_iff rest s2, hm,
            show ((a :: rest : List Int) : Multiset Int) = a ::ₘ (rest : Multiset Int) from rfl]
          apply not_congr
          rw [← Multiset.cons_erase (Multiset.mem_coe.mpr ha), Multiset.cons_le_cons_iff,
            Multiset.cons_erase (Multiset.mem_coe.mpr ha)]

theorem remove_list_subset (s r out : List Int) (h : remove_list s r = some out) :
    ∀ x ∈ out, x ∈ s := by
  intro x hx
  have hm := remove_list_some_multiset r s out h
  have hle : (out : Multiset Int) ≤ (s : Multiset Int) := by rw [hm]; exact tsub_le_self
  exact Multiset.mem_coe.mp (Multiset.mem_of_le hle (Multiset.mem_coe.mpr hx))

/-- The resolver loop only ever accumulates NONE sentinels: additions
come from `obtain_sample_nodes` (all NONE) and removals keep a subset. -/
theorem cmsnLoop_all_none (muts : List Mutation) (lc rs : Int → Int) (fuel : Nat) (ca : String) :
    ∀ (ms : List Mutation) (s out : List Int),
      (∀ x ∈ s, x = NONE) → cmsnLoop muts lc rs fuel ca ms s = Except.ok out →
      ∀ x ∈ out, x = NONE
  | [], s, out, hs, h => by
      simp only [cmsnLoop, Except.ok.injEq] at h
      exact h ▸ hs
  | m :: rest, s, out, hs, h => by
      rw [cmsnLoop] at h
      by_cases hd : m.derived_state = ca
      · rw [if_pos hd] at h
        cases ho : obtain_sample_nodes lc rs fuel m.node with
        | none => rw [ho] at h; exact Except.noConfusion h
        | some keep =>
            rw [ho] at h
            have hk := obtain_sample_nodes_all_none lc rs fuel m.node keep ho
            refine cmsnLoop_all_none muts lc rs fuel ca rest (s ++ keep) out ?_ h
            intro x hx
            rcases List.mem_append.mp hx with h1 | h1
            · exact hs x h1
            · exact hk x h1
      · rw [if_neg hd] at h
        cases hp : tsMutation muts m.parent with
        | error e => rw [hp] at h; exact Except.noConfusion h
        | ok pm =>
            rw [hp] at h
            dsimp only at h
            by_cases hpd : pm.derived_state = ca
            · rw [if_pos hpd] at h
              cases ho : obtain_sample_nodes lc rs fuel m.node with
              | none => rw [ho] at h; exact Except.noConfusion h
              | some rem =>
                  rw [ho] at h
                  dsimp only at h
                  cases hr : remove_list s rem with
                  | none => rw [hr] at h; exact Except.noConfusion h
                  | some s2 =>
                      rw [hr] at h
                      refine cmsnLoop_all_none muts lc rs fuel ca rest s2 out ?_ h
                      intro x hx
                      exact hs x (remove_list_subset s rem s2 hr x hx)
            · rw [if_neg hpd] at h
              exact cmsnLoop_all_none muts lc rs fuel ca rest s out hs h

/-- Every element of a successful resolver result is the NONE sentinel. -/
theorem cmsn_all_none (muts : List Mutation) (lc rs : Int → Int) (fuel : Nat)
    (site : Site) (ca : String) (L : List Int)
    (h : causal_mutation_sample_nodes muts lc rs fuel site ca = Except.ok L) :
    ∀ x ∈ L, x = NONE :=
  cmsnLoop_all_none muts lc rs fuel ca (sortDescTime site.mutations) [] L (by simp) h

theorem tsMutation_error (muts : List Mutation) (p : Int) (e : PyErr)
    (h : tsMutation muts p = Except.error e) : e = PyErr.missingParent := by
  rw [tsMutation] at h
  split at h
  · exact Except.noConfusion h
  · exact (Except.error.injEq .. ▸ h).symm

theorem cmsnLoop_not_invalid (muts : List Mutation) (lc rs : Int → Int) (fuel : Nat) (ca : String) :
    ∀ (ms : List Mutation) (s : List Int),
      isInvalidAlleleErr (cmsnLoop muts lc rs fuel ca ms s) = false
  | [], _ => rfl
  | m :: rest, s => by
      rw [cmsnLoop]
      by_cases hd : m.derived_state = ca
      · rw [if_pos hd]
        cases obtain_sample_nodes lc rs fuel m.node with
        | none => rfl
        | some keep => exact cmsnLoop_not_invalid muts lc rs fuel ca rest (s ++ keep)
      · rw [if_neg hd]
        cases hp : tsMutation muts m.parent with
        | error e =>
            rw [tsMutation_error muts m.parent e hp]
            rfl
        | ok pm =>
            dsimp only
            by_cases hpd : pm.derived_state = ca
            · rw [if_pos hpd]
              cases obtain_sample_nodes lc rs fuel m.node with
              | none => rfl
              | some rem =>
                  dsimp only
                  cases remove_list s rem with
                  | none => rfl
                  | some s2 => exact cmsnLoop_not_invalid muts lc rs fuel ca rest s2
            · rw [if_neg hpd]
              exact cmsnLoop_not_invalid muts lc rs fuel ca rest s

/-- NumPy index normalization: a negative index counts from the end of
an array of length `n`. -/
def npIndex (n : Nat) (i : Int) : Int := if i < 0 then i + n else i

/-- NumPy semantics of `G[idx] += beta` for a scalar `beta`
(phenotype.py line 197): every position targeted by some (normalized)
index receives the increment exactly once — duplicate indices collapse
because the gathered values are modified and scattered back.  `none`
models the `IndexError` on an out-of-range index. -/
def fancyAddScalar (G : List ℚ) (idx : List Int) (beta : ℚ) : Option (List ℚ) :=
  if idx.all (fun i => decide (0 ≤ npIndex G.length i) && decide (npIndex G.length i < (G.length : Int))) then
    some ((List.range G.length).map (fun (j : Nat) =>
      if idx.any (fun i => npIndex G.length i == (j : Int)) then G.getD j 0 + beta else G.getD j 0))
  else none

/-- Elements of a list at even positions: the NumPy slice `G[::2]`. -/
def stride2 : List ℚ → List ℚ
  | [] => []
  | [x] => [x]
  | x :: _ :: xs => x :: stride2 xs

/-- Elementwise `+` of two 1-D NumPy arrays with broadcasting: equal
lengths add pointwise, a length-1 operand is broadcast against the other
operand, and any other length mismatch raises the broadcast
`ValueError`, modelled as `none`. -/
def npBroadcastAdd (a b : List ℚ) : Option (List ℚ) :=
  if a.length = b.length then some (List.zipWith (fun a b => a + b) a b)
  else if a.length = 1 then some (b.map (fun y => a.getD 0 0 + y))
  else if b.length = 1 then some (a.map (fun x => x + b.getD 0 0))
  else none

/-- `individual_genetic(ts, G)` (phenotype.py lines 202-208):
`G = G[ts.samples()]` then `G = G[::2] + G[1::2]`, the strided slices
added with NumPy broadcasting.  The slice lengths differ exactly for an
odd number of genome copies; with 1 or 3 copies the shorter slice has
length at most 1 and broadcasting silently produces a result, while for
odd lengths of at least 5 the addition fails. -/
def individual_genetic (samples : List Nat) (G : List ℚ) : Option (List ℚ) :=
  if samples.all (fun s => decide (s < G.length)) then
    npBroadcastAdd (stride2 (samples.map (fun s => G.getD s 0)))
      (stride2 ((samples.map (fun s => G.getD s 0)).drop 1))
  else none

/-- Consecutive-pair sums of a list, the intended meaning of
`G[::2] + G[1::2]` on an even-length list. -/
def pairSums : List ℚ → List ℚ
  | [] => []
  | [_] => []
  | x :: y :: r => (x + y) :: pairSums r

/-- The per-site loop of `node_genetic_value` (phenotype.py lines
188-197).  After the resolver and the frequency computation the source
executes `beta = sim_beta(...)`; the name `sim_beta` is undefined in the
module, so the loop raises `NameError` there on its first site. -/
def ngvLoop (muts : List Mutation) (topo : ℚ → (Int → Int) × (Int → Int)) (fuel : Nat) (N : Nat) :
    List (Site × ℚ × String) → List ℚ → List ℚ → List ℚ → Except PyErr (List ℚ × List ℚ × List ℚ)
  | [], G, betas, freqs => Except.ok (G, betas, freqs)
  | (site, loc, ca) :: _, _G, _betas, _freqs =>
      match causal_mutation_sample_nodes muts (topo loc).1 (topo loc).2 fuel site ca with
      | Except.error e => Except.error e
      | Except.ok csn =>
          let _freq : ℚ := (csn.length : ℚ) / (N : ℚ)
          Except.error PyErr.nameErrSimBeta

/-- `node_genetic_value(ts, site_id, location, causal_allele, ...)`
(phenotype.py lines 172-199): zero-initializes `G` of length `size_G`
and runs the per-site loop.  `topo` models `tree.seek(loc)` returning the
`left_child`/`right_sib` arrays of the tree at `loc`; `sites` carries the
parallel `site_id`/`location`/`causal_allele` entries. -/
def node_genetic_value (muts : List Mutation) (topo : ℚ → (Int → Int) × (Int → Int))
    (fuel : Nat) (N : Nat) (sizeG : Nat) (sites : List (Site × ℚ × String)) :
    Except PyErr (List ℚ × List ℚ × List ℚ) :=
  ngvLoop muts topo fuel N sites (List.replicate sizeG 0) [] []

theorem getD_replicate_zero : ∀ (n j : Nat), (List.replicate n (0 : ℚ)).getD j 0 = 0
  | 0, _ => rfl
  | n + 1, 0 => rfl
  | n + 1, j + 1 => by
      rw [List.replicate_succ, List.getD_cons_succ]
      exact getD_replicate_zero n j

theorem stride2_cons (y : ℚ) (r : List ℚ) : stride2 (y :: r) = y :: stride2 (r.drop 1) := by
  cases r with
  | nil => rfl
  | cons z r2 => rfl

theorem stride2_length : ∀ L : List ℚ, (stride2 L).length = (L.length + 1) / 2
  | [] => rfl
  | [x] => by simp [stride2]
  | x :: y :: r => by
      simp only [stride2, List.length_cons, stride2_length r]
      omega

theorem pairSums_length : ∀ L : List ℚ, (pairSums L).length = L.length / 2
  | [] => rfl
  | [x] => by simp [pairSums]
  | x :: y :: r => by
      simp only [pairSums, List.length_cons, pairSums_length r]
      omega

theorem stride2_even_spec : ∀ L : List ℚ, L.length % 2 = 0 →
    (stride2 L).length = (stride2 (L.drop 1)).length ∧
      List.zipWith (fun a b => a + b) (stride2 L) (stride2 (L.drop 1)) = pairSums L
  | [], _ => by simp [stride2, pairSums]
  | [x], h => by simp at h
  | x :: y :: r, h => by
      have hr : r.length % 2 = 0 := by simp only [List.length_cons] at h; omega
      obtain ⟨hlen, hzip⟩ := stride2_even_spec r hr
      constructor
      · rw [show stride2 (x :: y :: r) = x :: stride2 r from rfl, List.drop_one,
          show (x :: y :: r).tail = y :: r from rfl, stride2_cons y r]
        simp [hlen]
      · rw [show stride2 (x :: y :: r) = x :: stride2 r from rfl, List.drop_one,
          show (x :: y :: r).tail = y :: r from rfl, stride2_cons y r,
          List.zipWith_cons_cons, show pairSums (x :: y :: r) = (x + y) :: pairSums r from rfl]
        rw [hzip]

theorem pairSums_getD : ∀ (L : List ℚ) (i : Nat), i < (pairSums L).length →
    (pairSums L).getD i 0 = L.getD (2 * i) 0 + L.getD (2 * i + 1) 0
  | [], i, h => by simp [pairSums] at h
  | [x], i, h => by simp [pairSums] at h
  | x :: y :: r, 0, _ => rfl
  | x :: y :: r, i + 1, h => by
      have h2 : i < (pairSums r).length := by
        simpa [pairSums, Nat.succ_lt_succ_iff] using h
      rw [show pairSums (x :: y :: r) = (x + y) :: pairSums r from rfl, List.getD_cons_succ,
        pairSums_getD r i h2,
        show 2 * (i + 1) = 2 * i + 1 + 1 from by omega, List.getD_cons_succ, List.getD_cons_succ,
        show 2 * i + 1 + 1 + 1 = (2 * i + 1) + 2 from by omega]
      rfl

/-- Arrays of a single-node tree: node 0 is a childless root. -/
def lcLeafOnly : Int → Int := fun _ => NONE

def rsLeafOnly : Int → Int := fun _ => NONE

/-- Arrays of the tree with root 2 and leaf children 0 and 1. -/
def lcFork : Int → Int := fun i => if i = 2 then 0 else NONE

def rsFork : Int → Int := fun i => if i = 0 then 1 else NONE

/-- Arrays of the chain tree with root 1 and single leaf child 0. -/
def lcChain : Int → Int := fun i => if i = 1 then 0 else NONE

def rsChain : Int → Int := fun _ => NONE

/-- Mutation at internal node 2 setting state B (time 2, NULL parent). -/
def mutForkTop : Mutation := ⟨2, "B", 2, -1⟩

/-- Back mutation at node 0 restoring the ancestral state A (time 1,
parent = mutation 0). -/
def mutBack : Mutation := ⟨0, "A", 1, 0⟩

/-- Back-mutation site: ancestral A, state B under node 2, back to A
under node 0. -/
def siteBack : Site := ⟨"A", [mutForkTop, mutBack]⟩

/-- Claim C1: the claim states that the enumerator returns exactly the
leaves reachable from the root, and the singleton containing the root
when the root itself is a leaf.  The code instead appends the loop
variable `child` (the `-1` sentinel) at every leaf: on a single-node
tree with root 0 it returns `[-1]`, not `[0]`.  This theorem evaluates
the embedded code at that failing input. -/
theorem obtain_sample_nodes_leaf_root_eval :
    obtain_sample_nodes lcLeafOnly rsLeafOnly 1 0 = some [NONE] ∧ NONE ≠ (0 : Int) :=
  ⟨rfl, by decide⟩

/-- Claim C2: in the back-mutation scenario (ancestral A, causal allele B
at internal node 2 with leaf children 0 and 1, back mutation to A at
child 0) the claim expects the resolver to return the samples under node
2 minus those under node 0, i.e. `{1}`.  Because the enumerator emits
`-1` sentinels instead of sample ids, the code returns `[-1]`.  This
theorem evaluates the embedded code at that failing input. -/
theorem causal_mutation_back_mutation_eval :
    causal_mutation_sample_nodes [mutForkTop, mutBack] lcFork rsFork 3 siteBack "B"
        = Except.ok [NONE]
      ∧ (1 : Int) ∉ [NONE] := by
  constructor
  · rfl
  · decide

/-- Claim C8: for a finite tree encoded by acyclic arrays (certified by
an array-consistent forest `f` under the root, with no node repeated in
the traversal order) the stack-based enumerator terminates — it returns
`some` within fuel `1 + size` — and the sequence of popped nodes
contains no duplicates. -/
theorem enumerator_terminates_no_revisit (lc rs : Int → Int) (root : Int) (f : BT)
    (hroot : lc root = BT.rootLabel f) (henc : BT.EncB lc rs f = true)
    (hnd : (root :: BT.visitOrder f).Nodup) :
    (∃ out, obtain_sample_nodes lc rs (1 + BT.size f) root = some out) ∧
    (∃ vis, visited_nodes lc rs (1 + BT.size f) root = some vis ∧ vis.Nodup) :=
  ⟨⟨List.replicate (BT.treeLeafCount f) NONE, obtain_sample_nodes_encoded lc rs root f hroot henc⟩,
    ⟨root :: BT.visitOrder f, visited_nodes_encoded lc rs root f hroot henc, hnd⟩⟩

/-- The child forest of root 2 in the fork tree: children 0 and 1. -/
def btForkForest : BT := BT.node 0 BT.leaf (BT.node 1 BT.leaf BT.leaf)

/-- Witness for C8 at the fork tree (root 2, leaf children 0 and 1). -/
theorem enumerator_terminates_no_revisit_witness :
    (∃ out, obtain_sample_nodes lcFork rsFork (1 + BT.size btForkForest) 2 = some out) ∧
    (∃ vis, visited_nodes lcFork rsFork (1 + BT.size btForkForest) 2 = some vis ∧ vis.Nodup) :=
  enumerator_terminates_no_revisit lcFork rsFork 2 btForkForest (by decide) (by decide) (by decide)

/-- Claim C9: `remove_list` removes exactly one occurrence of each
element of `remove_nodes` (the result is the multiset difference), and it
fails — Python `list.remove` raises `ValueError` — exactly when the
multiset of `remove_nodes` is not contained in `sample_nodes`, i.e. when
some requested element is no longer present at its removal step. -/
theorem remove_list_spec (s r : List Int) :
    (∀ out, remove_list s r = some out →
        (out : Multiset Int) = (s : Multiset Int) - (r : Multiset Int))
    ∧ (remove_list s r = none ↔ ¬ ((r : Multiset Int) ≤ (s : Multiset Int))) :=
  ⟨fun out h => remove_list_some_multiset r s out h, remove_list_none_iff r s⟩

/-- Witness for C9: removing `[1, 2]` from `[1, 2, 1]` yields `[1]`,
the multiset difference. -/
theorem remove_list_spec_witness :
    (([1] : List Int) : Multiset Int)
      = (([1, 2, 1] : List Int) : Multiset Int) - (([1, 2] : List Int) : Multiset Int) :=
  (remove_list_spec [1, 2, 1] [1, 2]).1 [1] rfl

/-- A site with ancestral state A and no mutations. -/
def siteNoMut : Site := ⟨"A", []⟩

/-- Claim C5 counterexample: for the site with no mutations and causal
allele Z (absent from every derived state and different from the
ancestral state A) the resolver does not fail with an
`InvalidAlleleError` — it returns the empty carrier list.  No code path
of `causal_mutation_sample_nodes` produces such an error. -/
theorem absent_allele_counterexample :
    ("Z" : String) ≠ "A"
    ∧ siteNoMut.mutations.all (fun m => !(m.derived_state == "Z")) = true
    ∧ causal_mutation_sample_nodes [] lcLeafOnly rsLeafOnly 1 siteNoMut "Z" = Except.ok []
    ∧ isInvalidAlleleErr (causal_mutation_sample_nodes [] lcLeafOnly rsLeafOnly 1 siteNoMut "Z")
        = false :=
  ⟨by decide, rfl, rfl, rfl⟩

/-- Claim C5 (amended): the resolver performs no allele validation at
all — for every input (in particular whenever the causal allele appears
in no mutation's derived state and differs from the ancestral state) its
outcome is never an `InvalidAlleleError`; when the causal allele is
absent it either returns a carrier list or fails with a different error
(a mutation-parent lookup on a NULL parent, or a failed removal). -/
theorem resolver_never_invalid_allele (muts : List Mutation) (lc rs : Int → Int)
    (fuel : Nat) (site : Site) (ca : String) :
    isInvalidAlleleErr (causal_mutation_sample_nodes muts lc rs fuel site ca) = false :=
  cmsnLoop_not_invalid muts lc rs fuel ca (sortDescTime site.mutations) []

/-- Nested mutation at leaf 0 with the same derived state B as the
mutation above it at node 2. -/
def mutNested : Mutation := ⟨0, "B", 1, 0⟩

/-- Site with two nested mutations that both carry the causal state B. -/
def siteNested : Site := ⟨"A", [mutForkTop, mutNested]⟩

/-- Mutation at the chain root 1 setting state B. -/
def mutChainTop : Mutation := ⟨1, "B", 2, -1⟩

/-- Site on the chain tree where the only leaf back-mutates to A. -/
def siteChainBack : Site := ⟨"A", [mutChainTop, mutBack]⟩

/-- Claim C4 counterexample.  First input (fork tree, two nested
mutations with derived state B, 2 samples): the carrier list counts the
overlapping subtrees twice, giving frequency 3/2 > 1.  Second input
(chain tree, mutation B at the root and a full back mutation at its only
leaf, 1 sample): the frequency is 0 although a mutation with the causal
derived state B exists, refuting the claimed equivalence. -/
theorem site_frequency_counterexample :
    site_frequency [mutForkTop, mutNested] lcFork rsFork 3 2 siteNested "B" = Except.ok (3 / 2)
    ∧ ¬ ((3 / 2 : ℚ) ≤ 1)
    ∧ site_frequency [mutChainTop, mutBack] lcChain rsChain 3 1 siteChainBack "B" = Except.ok 0
    ∧ mutChainTop ∈ siteChainBack.mutations ∧ mutChainTop.derived_state = "B" := by
  have h1 : causal_mutation_sample_nodes [mutForkTop, mutNested] lcFork rsFork 3 siteNested "B"
      = Except.ok [NONE, NONE, NONE] := by decide
  have h2 : causal_mutation_sample_nodes [mutChainTop, mutBack] lcChain rsChain 3 siteChainBack "B"
      = Except.ok [] := by decide
  refine ⟨?_, by norm_num, ?_, by decide, rfl⟩
  · simp only [site_frequency, h1, Except.map]
    exact congrArg Except.ok (by norm_num)
  · simp only [site_frequency, h2, Except.map]
    exact congrArg Except.ok (by norm_num)

/-- Claim C4 (amended): whenever the resolver succeeds and there is at
least one sample, the recorded frequency `len(carriers)/N` is
non-negative, and it is zero exactly when the resolved carrier list is
empty.  (The original upper bound 1 and the equivalence with "no mutation
carries the causal allele" both fail, see the counterexample.) -/
theorem site_frequency_nonneg_zero_iff (muts : List Mutation) (lc rs : Int → Int)
    (fuel N : Nat) (site : Site) (ca : String) (L : List Int)
    (hN : 0 < N)
    (hL : causal_mutation_sample_nodes muts lc rs fuel site ca = Except.ok L) :
    ∃ q, site_frequency muts lc rs fuel N site ca = Except.ok q ∧
      0 ≤ q ∧ (q = 0 ↔ L = []) := by
  refine ⟨(L.length : ℚ) / (N : ℚ), ?_, ?_, ?_⟩
  · simp only [site_frequency, hL, Except.map]
  · exact div_nonneg (Nat.cast_nonneg _) (Nat.cast_nonneg _)
  · rw [div_eq_zero_iff]
    constructor
    · intro h
      rcases h with h | h
      · exact List.length_eq_zero.mp (Nat.cast_eq_zero.mp h)
      · exact absurd (Nat.cast_eq_zero.mp h) (Nat.pos_iff_ne_zero.mp hN)
    · intro h
      left
      simp [h]

/-- Witness for the amended C4 at the mutation-free site with 2 samples:
the frequency is 0 and the carrier list is empty. -/
theorem site_frequency_nonneg_zero_iff_witness :
    ∃ q, site_frequency [] lcLeafOnly rsLeafOnly 1 2 siteNoMut "B" = Except.ok q ∧
      0 ≤ q ∧ (q = 0 ↔ ([] : List Int) = []) :=
  site_frequency_nonneg_zero_iff [] lcLeafOnly rsLeafOnly 1 2 siteNoMut "B" []
    (by decide) rfl

/-- Claim C10: for every input with a non-empty causal-site list,
`node_genetic_value` fails before completing its first site — it never
returns a result triple — and whenever the first site's resolution
succeeds, the failure is precisely the unresolved-name error raised by
the call to the undefined `sim_beta`. -/
theorem node_genetic_value_never_returns (muts : List Mutation)
    (topo : ℚ → (Int → Int) × (Int → Int)) (fuel N sizeG : Nat)
    (sites : List (Site × ℚ × String)) (hne : sites ≠ []) :
    (∃ e, node_genetic_value muts topo fuel N sizeG sites = Except.error e) ∧
    (∀ site loc ca rest L, sites = (site, loc, ca) :: rest →
      causal_mutation_sample_nodes muts (topo loc).1 (topo loc).2 fuel site ca = Except.ok L →
      node_genetic_value muts topo fuel N sizeG sites = Except.error PyErr.nameErrSimBeta) := by
  cases sites with
  | nil => exact absurd rfl hne
  | cons p rest =>
      obtain ⟨site, loc, ca⟩ := p
      constructor
      · rw [node_genetic_value, ngvLoop]
        cases h : causal_mutation_sample_nodes muts (topo loc).1 (topo loc).2 fuel site ca with
        | error e => exact ⟨e, rfl⟩
        | ok csn => exact ⟨PyErr.nameErrSimBeta, rfl⟩
      · intro site2 loc2 ca2 rest2 L heq hok
        rw [List.cons.injEq, Prod.mk.injEq, Prod.mk.injEq] at heq
        obtain ⟨⟨rfl, rfl, rfl⟩, rfl⟩ := heq
        rw [node_genetic_value, ngvLoop, hok]

theorem npIndexNONE (n : Nat) : npIndex n NONE = (n : Int) - 1 := by
  show (if (-1 : Int) < 0 then (-1 : Int) + (n : Int) else (-1 : Int)) = (n : Int) - 1
  rw [if_pos (by norm_num)]
  ring

theorem sum_indicator_last (n : Nat) (beta : ℚ) (hn : 1 ≤ n) :
    ((List.range n).map (fun (j : Nat) => if ((n : Int) - 1 = (j : Int)) then beta else 0)).sum
      = beta := by
  obtain ⟨m, rfl⟩ : ∃ m, n = m + 1 := ⟨n - 1, by omega⟩
  rw [List.range_succ, List.map_append, List.sum_append]
  have h0 : ((List.range m).map
      (fun (j : Nat) => if (((m + 1 : Nat) : Int) - 1 = (j : Int)) then beta else 0)).sum = 0 := by
    apply List.sum_eq_zero
    intro x hx
    rcases List.mem_map.mp hx with ⟨j, hj, rfl⟩
    have hjm : j < m := List.mem_range.mp hj
    rw [if_neg (by push_cast; omega)]
  rw [h0]
  simp only [List.map_cons, List.map_nil, List.sum_cons, List.sum_nil]
  rw [if_pos (by push_cast; omega)]
  ring

/-- Claim C3: for a single causal site whose resolution succeeds with
carrier list `L` and effect size `beta`, accumulating into the
zero-initialized per-node array of length `n ≥ 1` (NumPy
`G[carriers] += beta`) succeeds, and the total of the array equals
`beta` times the cardinality of the resolved carrier set.  (The resolved
carriers are all the `-1` sentinel, so the set has at most one element
and NumPy's scatter applies the increment once; the effect size is a
parameter because the source's `sim_beta` is undefined.) -/
theorem genetic_value_sum_law (muts : List Mutation) (lc rs : Int → Int)
    (fuel : Nat) (site : Site) (ca : String) (L : List Int) (n : Nat) (beta : ℚ)
    (hL : causal_mutation_sample_nodes muts lc rs fuel site ca = Except.ok L)
    (hn : 1 ≤ n) :
    ∃ G2, fancyAddScalar (List.replicate n 0) L beta = some G2 ∧
      G2.sum = beta * (L.toFinset.card : ℚ) := by
  have hall : ∀ x ∈ L, x = NONE := cmsn_all_none muts lc rs fuel site ca L hL
  have hlen : (List.replicate n (0 : ℚ)).length = n := List.length_replicate n 0
  have hcond : L.all (fun i => decide (0 ≤ npIndex (List.replicate n (0 : ℚ)).length i)
      && decide (npIndex (List.replicate n (0 : ℚ)).length i
        < ((List.replicate n (0 : ℚ)).length : Int))) = true := by
    rw [List.all_eq_true]
    intro i hi
    rw [hall i hi, hlen, npIndexNONE]
    simp only [Bool.and_eq_true, decide_eq_true_eq]
    omega
  unfold fancyAddScalar
  rw [if_pos hcond]
  refine ⟨_, rfl, ?_⟩
  cases L with
  | nil =>
      rw [show (([] : List Int).toFinset.card : ℚ) = 0 from by simp, mul_zero]
      apply List.sum_eq_zero
      intro x hx
      rcases List.mem_map.mp hx with ⟨j, hj, rfl⟩
      simp [getD_replicate_zero]
  | cons a L2 =>
      have hmap : (List.range (List.replicate n (0 : ℚ)).length).map (fun (j : Nat) =>
            if (a :: L2).any (fun i => npIndex (List.replicate n (0 : ℚ)).length i == (j : Int))
            then (List.replicate n (0 : ℚ)).getD j 0 + beta
            else (List.replicate n (0 : ℚ)).getD j 0)
          = (List.range n).map (fun (j : Nat) => if ((n : Int) - 1 = (j : Int)) then beta else 0) := by
        rw [hlen]
        apply List.map_congr_left
        intro j _
        have hany : ((a :: L2).any (fun i => npIndex n i == (j : Int)) = true)
            ↔ ((n : Int) - 1 = (j : Int)) := by
          rw [List.any_eq_true]
          constructor
          · rintro ⟨i, hi, hpi⟩
            rw [hall i hi, npIndexNONE, beq_iff_eq] at hpi
            exact hpi
          · intro hj2
            refine ⟨a, List.mem_cons_self a L2, ?_⟩
            rw [hall a (List.mem_cons_self a L2), npIndexNONE, beq_iff_eq]
            exact hj2
        by_cases hc2 : ((n : Int) - 1 = (j : Int))
        · rw [if_pos (hany.mpr hc2), if_pos hc2, getD_replicate_zero, zero_add]
        · rw [if_neg (fun hh => hc2 (hany.mp hh)), if_neg hc2, getD_replicate_zero]
      rw [hmap, sum_indicator_last n beta hn]
      have hts : (a :: L2).toFinset = {(-1 : Int)} := by
        apply Finset.ext
        intro x
        simp only [List.mem_toFinset, Finset.mem_singleton]
        constructor
        · intro hx
          exact hall x hx
        · intro hx
          subst hx
          rw [show a = (-1 : Int) from hall a (List.mem_cons_self a L2)]
          exact List.mem_cons_self _ _
      rw [hts, Finset.card_singleton, Nat.cast_one, mul_one]

/-- Witness for C3 at a single-mutation site on the single-node tree:
the resolver returns `[-1]`, the accumulation writes `beta = 2` once and
the array total is `2 * 1`. -/
theorem genetic_value_sum_law_witness :
    ∃ G2, fancyAddScalar (List.replicate 1 0) [NONE] 2 = some G2 ∧
      G2.sum = 2 * ((([NONE] : List Int).toFinset.card : ℚ)) :=
  genetic_value_sum_law [mutForkTop] lcLeafOnly rsLeafOnly 1 ⟨"A", [mutForkTop]⟩ "B"
    [NONE] 1 2 (by decide) (by decide)

/-- Claim C6: given the per-node values gathered in genome-copy order,
an even number of genome copies yields one value per individual,
individual `i` receiving the sum of copies `2*i` and `2*i+1`; in
particular the gathered vector `[1, 3, 2, 4]` reduces to `[4, 6]`. -/
theorem individual_genetic_even_spec :
    (∀ (samples : List Nat) (G : List ℚ),
        samples.all (fun s => decide (s < G.length)) = true →
        samples.length % 2 = 0 →
        ∃ out, individual_genetic samples G = some out ∧
          out.length = samples.length / 2 ∧
          ∀ i, i < out.length →
            out.getD i 0 = (samples.map (fun s => G.getD s 0)).getD (2 * i) 0
              + (samples.map (fun s => G.getD s 0)).getD (2 * i + 1) 0)
    ∧ individual_genetic [0, 1, 2, 3] [1, 3, 2, 4] = some [4, 6] := by
  constructor
  · intro samples G hb he
    have hlen2 : (samples.map (fun s => G.getD s 0)).length % 2 = 0 := by
      rw [List.length_map]
      exact he
    obtain ⟨hl, hz⟩ := stride2_even_spec (samples.map (fun s => G.getD s 0)) hlen2
    refine ⟨pairSums (samples.map (fun s => G.getD s 0)), ?_, ?_, ?_⟩
    · unfold individual_genetic npBroadcastAdd
      rw [if_pos hb, if_pos hl, hz]
    · rw [pairSums_length, List.length_map]
    · intro i hi
      exact pairSums_getD _ i hi
  · have he : individual_genetic [0, 1, 2, 3] [1, 3, 2, 4]
        = some [(1 : ℚ) + 3, (2 : ℚ) + 4] := rfl
    rw [he]
    norm_num

/-- Witness for C6 at the concrete example of the claim. -/
theorem individual_genetic_even_spec_witness :
    ∃ out, individual_genetic [0, 1, 2, 3] [1, 3, 2, 4] = some out ∧
      out.length = ([0, 1, 2, 3] : List Nat).length / 2 ∧
      ∀ i, i < out.length →
        out.getD i 0
            = (([0, 1, 2, 3] : List Nat).map
                (fun s => ([1, 3, 2, 4] : List ℚ).getD s 0)).getD (2 * i) 0
              + (([0, 1, 2, 3] : List Nat).map
                (fun s => ([1, 3, 2, 4] : List ℚ).getD s 0)).getD (2 * i + 1) 0 :=
  individual_genetic_even_spec.1 [0, 1, 2, 3] [1, 3, 2, 4] (by decide) (by decide)

/-- Claim C7 counterexample: the claim states that every odd number of
genome copies makes the reducer fail, but for the spec's own example
input — three copies with gathered values `[1, 2, 3]` — NumPy broadcasts
the length-1 slice `G[1::2] = [2]` against `G[::2] = [1, 3]` and the
code silently returns `[3, 5]` instead of failing. -/
theorem individual_genetic_odd_counterexample :
    ([0, 1, 2] : List Nat).length % 2 = 1
    ∧ individual_genetic [0, 1, 2] [1, 2, 3] = some [3, 5] := by
  refine ⟨by decide, ?_⟩
  have he : individual_genetic [0, 1, 2] [1, 2, 3]
      = some [(1 : ℚ) + 2, (3 : ℚ) + 2] := rfl
  rw [he]
  norm_num

/-- Claim C7 (amended): with an odd number of genome copies the reducer
fails only when there are at least 5 copies — the slices `G[::2]` and
`G[1::2]` then have unequal lengths, neither equal to 1, so the
elementwise sum raises the broadcast `ValueError` (`none`); with 1 or 3
copies NumPy broadcasts the length-1 (or empty against length-1) slice
and the reducer silently returns a result, e.g. `[1, 2, 3]` yields
`[3, 5]`. -/
theorem individual_genetic_odd_spec :
    (∀ (samples : List Nat) (G : List ℚ), samples.length % 2 = 1 → 5 ≤ samples.length →
        individual_genetic samples G = none)
    ∧ individual_genetic [0, 1, 2] [1, 2, 3] = some [3, 5] := by
  constructor
  · intro samples G h h5
    unfold individual_genetic
    by_cases hb : samples.all (fun s => decide (s < G.length)) = true
    · rw [if_pos hb]
      unfold npBroadcastAdd
      have ha : (stride2 (samples.map (fun s => G.getD s 0))).length
          = (samples.length + 1) / 2 := by
        rw [stride2_length, List.length_map]
      have hbl : (stride2 ((samples.map (fun s => G.getD s 0)).drop 1)).length
          = samples.length / 2 := by
        rw [stride2_length, List.length_drop, List.length_map]
        omega
      rw [ha, hbl, if_neg (by omega), if_neg (by omega), if_neg (by omega)]
    · rw [if_neg hb]
  · have he : individual_genetic [0, 1, 2] [1, 2, 3]
        = some [(1 : ℚ) + 2, (3 : ℚ) + 2] := rfl
    rw [he]
    norm_num

/-- Witness for the amended C7 at five genome copies: slice lengths 3
and 2, neither 1, so the reducer fails. -/
theorem individual_genetic_odd_spec_witness :
    individual_genetic [0, 1, 2, 3, 4] [1, 2, 3, 4, 5] = none :=
  individual_genetic_odd_spec.1 [0, 1, 2, 3, 4] [1, 2, 3, 4, 5] (by decide) (by decide)

/-- Witness for C10 at a mutation-free site: the resolver succeeds, so
the loop fails with the unresolved-name error for `sim_beta`. -/
theorem node_genetic_value_never_returns_witness :
    ∃ e, node_genetic_value [] (fun _ => (lcLeafOnly, rsLeafOnly)) 1 2 2 [(siteNoMut, 0, "B")]
      = Except.error e :=
  (node_genetic_value_never_returns [] (fun _ => (lcLeafOnly, rsLeafOnly)) 1 2 2
    [(siteNoMut, 0, "B")] (List.cons_ne_nil _ _)).1
